import Mathlib

/-!
Verification of the MCSHoster core logic: a shallow embedding in Lean 4 of
the scheduler next-run computation, the schedule tick, the server-process
supervisor, the zip-based world backup/restore, the properties-file
helpers and the ops/whitelist JSON helpers, together with theorems
settling the specified properties.
-/

/-! ## Calendar and datetime model (Python `datetime` semantics) -/

/-- A calendar date, mirroring the `year`, `month`, `day` fields of a
Python `datetime`. -/
structure Date where
  year : Nat
  month : Nat
  day : Nat
deriving DecidableEq, Repr

/-- A wall-clock instant, mirroring a naive Python `datetime`. -/
structure DateTime where
  date : Date
  hour : Nat
  minute : Nat
  second : Nat
  microsecond : Nat
deriving DecidableEq, Repr

/-- Gregorian leap-year rule, as Python's `calendar.isleap`. -/
def isLeapYear (y : Nat) : Bool :=
  y % 4 == 0 && (y % 100 != 0 || y % 400 == 0)

/-- Number of days in a month of the Gregorian calendar. -/
def daysInMonth (y m : Nat) : Nat :=
  if m = 2 then (if isLeapYear y then 29 else 28)
  else if m = 4 ∨ m = 6 ∨ m = 9 ∨ m = 11 then 30
  else 31

/-- The calendar date one day later, rolling over months and years. -/
def Date.next (d : Date) : Date :=
  if d.day < daysInMonth d.year d.month then ⟨d.year, d.month, d.day + 1⟩
  else if d.month < 12 then ⟨d.year, d.month + 1, 1⟩
  else ⟨d.year + 1, 1, 1⟩

/-- Lexicographic strict order on dates, as Python `datetime` comparison. -/
def Date.lt (a b : Date) : Prop :=
  a.year < b.year ∨ (a.year = b.year ∧
    (a.month < b.month ∨ (a.month = b.month ∧ a.day < b.day)))

instance (a b : Date) : Decidable (Date.lt a b) := by
  unfold Date.lt; exact inferInstance

/-- Lexicographic strict order on datetimes, as Python `datetime`
comparison: date first, then hour, minute, second, microsecond. -/
def DateTime.lt (a b : DateTime) : Prop :=
  Date.lt a.date b.date ∨ (a.date = b.date ∧
    (a.hour < b.hour ∨ (a.hour = b.hour ∧
      (a.minute < b.minute ∨ (a.minute = b.minute ∧
        (a.second < b.second ∨ (a.second = b.second ∧
          a.microsecond < b.microsecond)))))))

instance (a b : DateTime) : Decidable (DateTime.lt a b) := by
  unfold DateTime.lt; exact inferInstance

/-- Non-strict order on datetimes (`<=` in Python). -/
def DateTime.le (a b : DateTime) : Prop := a = b ∨ DateTime.lt a b

instance (a b : DateTime) : Decidable (DateTime.le a b) := by
  unfold DateTime.le; exact inferInstance

/-- Embedding of `nxt + timedelta(days=1)` on a naive datetime: the time of
day is kept and the date advances one calendar day. -/
def DateTime.addOneDay (t : DateTime) : DateTime := { t with date := t.date.next }

/-- Embedding of `now.replace(hour=hr, minute=0, second=0, microsecond=0)`. -/
def DateTime.replaceHM (t : DateTime) (hr : Nat) : DateTime :=
  { t with hour := hr, minute := 0, second := 0, microsecond := 0 }

/-- Embedding of `HostToolsTab.update_next_runs.get_next_run` in
`src/main.py`: `nxt = now.replace(hour=hr, minute=0, second=0,
microsecond=0); if nxt <= now: nxt += timedelta(days=1); return nxt`. -/
def get_next_run (now : DateTime) (hr : Nat) : DateTime :=
  let nxt := now.replaceHM hr
  if DateTime.le nxt now then nxt.addOneDay else nxt

/-! ## Schedule tick (`HostToolsTab.check_schedule` in `src/main.py`) -/

/-- Configuration read by the schedule tick: enabled flags and target
hours for the backup and restart actions. -/
structure ScheduleConfig where
  enableBackup : Bool
  backupHour : Nat
  enableRestart : Bool
  restartHour : Nat
deriving DecidableEq, Repr

/-- An action fired by a schedule tick. -/
inductive SchedAction where
  | backup
  | restartNote
deriving DecidableEq, Repr, BEq

/-- Embedding of `HostToolsTab.check_schedule` in `src/main.py`: on each
invocation it fires the backup action when `enable_backup` is checked and
`now.minute == 0 and now.hour == backup_hour`, then the restart
notification under the symmetric condition. The function keeps no state
between invocations. -/
def check_schedule (cfg : ScheduleConfig) (now : DateTime) : List SchedAction :=
  (if cfg.enableBackup && (now.minute == 0) && (now.hour == cfg.backupHour)
   then [SchedAction.backup] else []) ++
  (if cfg.enableRestart && (now.minute == 0) && (now.hour == cfg.restartHour)
   then [SchedAction.restartNote] else [])

/-- All actions fired over a sequence of tick invocations. -/
def runTicks (cfg : ScheduleConfig) (times : List DateTime) : List SchedAction :=
  times.foldr (fun t acc => check_schedule cfg t ++ acc) []

/-- How many times the backup action fires over a sequence of ticks. -/
def backupFireCount (cfg : ScheduleConfig) (times : List DateTime) : Nat :=
  (runTicks cfg times).count SchedAction.backup

/-! ## ServerProcess supervisor (`ServerProcess` in `src/services.py`) -/

/-- A handle on the spawned child OS process; `alive` mirrors
`proc.poll() is None`. -/
structure ProcHandle where
  pid : Nat
  alive : Bool
deriving DecidableEq, Repr

/-- Supervisor state: the `self.proc` field of `ServerProcess`
(`None` before any successful start). -/
structure ServerProcess where
  proc : Option ProcHandle
deriving DecidableEq, Repr

/-- Mirrors the guard `self.proc and self.proc.poll() is None`. -/
def procAlive (sp : ServerProcess) : Bool :=
  match sp.proc with
  | some p => p.alive
  | none => false

/-- Errors `ServerProcess.start` can raise: `FileNotFoundError` when
`server.jar` is absent (`ExecutableMissing`), or a spawn failure
re-raised from `subprocess.Popen` (`SpawnFailed`). -/
inductive StartError where
  | ExecutableMissing
  | SpawnFailed
deriving DecidableEq, Repr

/-- Embedding of `ServerProcess.start` in `src/services.py`. The
environment is passed explicitly: `jarExists` is whether
`server_dir / "server.jar"` exists, `spawnOk` whether `subprocess.Popen`
succeeds, `newPid` the pid the OS would assign. Returns the updated
supervisor state, the pid of a newly spawned process if any, and the
raised error if any. -/
def ServerProcess.start (sp : ServerProcess) (jarExists spawnOk : Bool)
    (newPid : Nat) : ServerProcess × Option Nat × Option StartError :=
  if procAlive sp then (sp, none, none)
  else if !jarExists then (sp, none, some StartError.ExecutableMissing)
  else if spawnOk then ({ proc := some ⟨newPid, true⟩ }, some newPid, none)
  else (sp, none, some StartError.SpawnFailed)

/-- The error the spec assigns to commands sent with no live process. -/
inductive SendError where
  | NotRunningError
deriving DecidableEq, Repr

/-- Embedding of `ServerProcess.send_command` in `src/services.py`: when
the child is alive the command plus a newline is written to its stdin
(`writeOk` is whether that write succeeds; on failure the exception is
caught and logged); with no live child the body is skipped entirely.
The returned list is what was written to the child's input stream. The
codomain allows an error so the claimed `NotRunningError` is statable,
but the source never raises: every path returns `Except.ok`. -/
def ServerProcess.send_command (sp : ServerProcess) (cmd : String)
    (writeOk : Bool) : Except SendError (ServerProcess × List String) :=
  if procAlive sp then
    if writeOk then Except.ok (sp, [cmd ++ "\n"]) else Except.ok (sp, [])
  else Except.ok (sp, [])

/-! ## File-system model for the backup helpers (`src/services.py`) -/

/-- A path is the list of its components. -/
abbrev FPath := List String

/-- Contents of a file on disk: raw bytes, or a zip archive holding a
list of (archive-relative path, stored contents) entries, as written by
`zipfile.ZipFile`. -/
inductive FileData where
  | raw : String → FileData
  | zipArchive : List (FPath × FileData) → FileData

/-- The visible file system: regular files with their contents, and the
set of directories. -/
structure FS where
  files : List (FPath × FileData)
  dirs : List FPath

/-- Contents of the file at `p`, if one exists (`find?` mirrors that a
real file system has at most one entry per path). -/
def lookupFile (fs : FS) (p : FPath) : Option FileData :=
  (fs.files.find? (fun e => e.1 == p)).map (fun e => e.2)

/-- Write a file at `p`, overwriting any existing entry (open mode `"w"`). -/
def setFile (l : List (FPath × FileData)) (p : FPath) (d : FileData) :
    List (FPath × FileData) :=
  match l with
  | [] => [(p, d)]
  | e :: rest => if e.1 == p then (p, d) :: rest else e :: setFile rest p d

/-- Mirrors `Path.exists()`: true when a directory or a file is at `p`. -/
def pathExists (fs : FS) (p : FPath) : Bool :=
  fs.dirs.any (fun d => d == p) || fs.files.any (fun e => e.1 == p)

/-- The files `os.walk` visits below `pre` (recursive, files only). -/
def filesUnder (fs : FS) (pre : FPath) : List (FPath × FileData) :=
  fs.files.filter (fun e => pre.isPrefixOf e.1)

/-- Mirrors `Path.parent`. -/
def parentPath (p : FPath) : FPath := p.dropLast

/-- Mirrors `full.relative_to(base)` for `base` a prefix of `full`. -/
def relTo (base p : FPath) : FPath := p.drop base.length

/-- Mirrors `worlds_dir` in `src/services.py`: `server_dir / "world"`. -/
def worlds_dir (serverDir : FPath) : FPath := serverDir ++ ["world"]

/-- The backups directory path `server_dir / "backups"`. -/
def backupDirPath (serverDir : FPath) : FPath := serverDir ++ ["backups"]

/-- Mirrors `ensure_dir`: `mkdir(parents=True, exist_ok=True)`. -/
def ensureDirFS (fs : FS) (d : FPath) : FS :=
  if fs.dirs.any (fun x => x == d) then fs else { fs with dirs := fs.dirs ++ [d] }

/-- Failure of `make_world_backup`: the `FileNotFoundError` raised when
the world folder does not exist (`WorldMissing` in the spec). -/
inductive BackupError where
  | WorldMissing
deriving DecidableEq, Repr

/-- Embedding of `make_world_backup` in `src/services.py`: check the
world folder exists, ensure the backups directory, create
`world_<ts>.zip` holding every file under the world folder at its path
relative to the world folder's parent. Returns the updated file system,
the created zip path if any, and the raised error if any. -/
def make_world_backup (fs : FS) (serverDir : FPath) (worldFolder : Option FPath)
    (ts : String) : FS × Option FPath × Option BackupError :=
  let wf := worldFolder.getD (worlds_dir serverDir)
  if pathExists fs wf then
    let fs1 := ensureDirFS fs (backupDirPath serverDir)
    let zipPath := backupDirPath serverDir ++ ["world_" ++ ts ++ ".zip"]
    let entries := (filesUnder fs1 wf).map
      (fun e => (relTo (parentPath wf) e.1, e.2))
    ({ fs1 with files := setFile fs1.files zipPath (FileData.zipArchive entries) },
     some zipPath, none)
  else (fs, none, some BackupError.WorldMissing)

/-- Failures of `restore_backup`: the `FileNotFoundError` raised when
the archive is gone (`ArchiveMissing`), or a corrupt/non-zip archive. -/
inductive RestoreError where
  | ArchiveMissing
  | BadArchive
deriving DecidableEq, Repr

/-- Rename the tree at `src` to `dst`: every path having `src` as a
prefix gets that prefix replaced by `dst`. -/
def replacePrefix (src dst p : FPath) : FPath :=
  if src.isPrefixOf p then dst ++ p.drop src.length else p

/-- Mirrors `shutil.move(src, dst)` renaming a directory tree (target
not already present). -/
def movePath (fs : FS) (src dst : FPath) : FS :=
  { files := fs.files.map (fun e => (replacePrefix src dst e.1, e.2)),
    dirs := fs.dirs.map (replacePrefix src dst) }

/-- Mirrors `ZipFile.extractall(target)`: write each archive entry at
`target ++ entry path`, overwriting. -/
def extractAll (fs : FS) (target : FPath) (entries : List (FPath × FileData)) : FS :=
  entries.foldl (fun acc e => { acc with files := setFile acc.files (target ++ e.1) e.2 }) fs

/-- Embedding of `restore_backup` in `src/services.py`: fail if the
archive is gone; otherwise move any current world directory to
`world_old_<ts>`, then extract the archive into the world directory's
parent. -/
def restore_backup (fs : FS) (serverDir : FPath) (backupZip : FPath)
    (ts : String) : FS × Option RestoreError :=
  if pathExists fs backupZip then
    let world := worlds_dir serverDir
    let fs1 := if pathExists fs world
               then movePath fs world (serverDir ++ ["world_old_" ++ ts])
               else fs
    match lookupFile fs1 backupZip with
    | some (FileData.zipArchive entries) => (extractAll fs1 serverDir entries, none)
    | _ => (fs1, some RestoreError.BadArchive)
  else (fs, some RestoreError.ArchiveMissing)

/-! ## Properties-file helpers (`read_properties` / `write_properties`) -/

/-- The characters Python's `str.strip()` removes: the Unicode
whitespace set — tab through carriage return (including vertical tab
and form feed), the information separators, space, next line, no-break
space, ogham space mark, the general-punctuation spaces, the line and
paragraph separators, narrow no-break space, medium mathematical space
and ideographic space. -/
def pyWhitespace (c : Char) : Bool :=
  decide ((9 ≤ c.toNat ∧ c.toNat ≤ 13) ∨ (28 ≤ c.toNat ∧ c.toNat ≤ 32) ∨
    c.toNat = 133 ∨ c.toNat = 160 ∨ c.toNat = 5760 ∨
    (8192 ≤ c.toNat ∧ c.toNat ≤ 8202) ∨ c.toNat = 8232 ∨ c.toNat = 8233 ∨
    c.toNat = 8239 ∨ c.toNat = 8287 ∨ c.toNat = 12288)

/-- Python `str.strip()` on a line: drop Python whitespace at both
ends. -/
def stripChars (s : List Char) : List Char :=
  ((s.dropWhile pyWhitespace).reverse.dropWhile pyWhitespace).reverse

/-- Python `line.split("=", 1)` when `"=" in line`: the text before the
first `'='` and the text after it; `none` when there is no `'='`. -/
def splitFirstEq : List Char → Option (List Char × List Char)
  | [] => none
  | c :: rest =>
    if c = '=' then some ([], rest)
    else (splitFirstEq rest).map (fun p => (c :: p.1, p.2))

/-- Python dict assignment `props[k] = v` on an insertion-ordered
association list: update in place if the key exists, else append. -/
def dictSet (d : List (List Char × List Char)) (k v : List Char) :
    List (List Char × List Char) :=
  match d with
  | [] => [(k, v)]
  | e :: rest => if e.1 = k then (k, v) :: rest else e :: dictSet rest k v

/-- One iteration of the `read_properties` loop body on a line. -/
def parseLine (props : List (List Char × List Char)) (line : List Char) :
    List (List Char × List Char) :=
  let l := stripChars line
  if l = [] then props
  else if l.head? = some '#' then props
  else match splitFirstEq l with
       | some (k, v) => dictSet props k v
       | none => props

/-- The universal-newline translation Python's text-mode file reading
performs before lines are produced: `"\r\n"` and a lone `'\r'` both
become `'\n'`. -/
def univNl : List Char → List Char
  | [] => []
  | '\r' :: '\n' :: rest => '\n' :: univNl rest
  | '\r' :: rest => '\n' :: univNl rest
  | c :: rest => c :: univNl rest

/-- Split translated file contents into the lines Python's file
iteration yields (the terminating newline of each line is immaterial
after `strip`). -/
def splitLinesNl : List Char → List (List Char)
  | [] => [[]]
  | c :: rest =>
    if c = '\n' then [] :: splitLinesNl rest
    else match splitLinesNl rest with
         | [] => [[c]]
         | l :: ls => (c :: l) :: ls

/-- Embedding of `read_properties` in `src/services.py`, applied to the
raw contents of the file: translate universal newlines as text-mode
reading does, then fold the loop body over the resulting lines. -/
def read_properties (content : List Char) : List (List Char × List Char) :=
  (splitLinesNl (univNl content)).foldl parseLine []

/-- Embedding of `write_properties` in `src/services.py`, as the
contents written: the line `k=v` plus a newline for each entry in
insertion order. -/
def write_properties (props : List (List Char × List Char)) : List Char :=
  props.foldr (fun e acc => e.1 ++ '=' :: e.2 ++ '\n' :: acc) []

/-- A string with no leading and no trailing Python whitespace. -/
def noEdgeWs (s : List Char) : Bool :=
  (s.head?.all fun c => !pyWhitespace c) &&
  (s.getLast?.all fun c => !pyWhitespace c)

/-! ## Users helpers (`add_op` / `add_whitelist` in `src/services.py`) -/

/-- Python truthiness of the optional `uuid` argument (`if uuid:`):
false for `None` and for the empty string. -/
def uuidTruthy : Option String → Bool
  | none => false
  | some s => !(s == "")

/-- An entry of `ops.json`: `{"name", "level", "bypassesPlayerLimit"}`
plus an optional `"uuid"` key. -/
structure OpEntry where
  name : String
  level : Nat
  bypasses : Bool
  uuid : Option String
deriving DecidableEq, Repr

/-- Embedding of `add_op` in `src/services.py`: build the new entry
(with the `uuid` key only when `uuid` is truthy), return the list
unchanged if some existing entry has the same name — or, when `uuid` is
truthy, the same uuid — else append. -/
def add_op (ops : List OpEntry) (name : String) (uuid : Option String)
    (level : Nat) : List OpEntry :=
  if ops.any (fun e => e.name == name || (uuidTruthy uuid && e.uuid == uuid))
  then ops
  else ops ++ [{ name := name, level := level, bypasses := false,
                 uuid := if uuidTruthy uuid then uuid else none }]

/-- An entry of `whitelist.json`: `{"name"}` plus an optional `"uuid"`. -/
structure WlEntry where
  name : String
  uuid : Option String
deriving DecidableEq, Repr

/-- Embedding of `add_whitelist` in `src/services.py`: return the list
unchanged if some existing entry has the same name, else append. -/
def add_whitelist (wl : List WlEntry) (name : String) (uuid : Option String) :
    List WlEntry :=
  if wl.any (fun e => e.name == name)
  then wl
  else wl ++ [{ name := name, uuid := if uuidTruthy uuid then uuid else none }]

/-! ## Order lemmas for the datetime model -/

/-- The next calendar day is strictly later. -/
lemma Date.lt_next (d : Date) : Date.lt d d.next := by
  unfold Date.next
  split
  · exact Or.inr ⟨rfl, Or.inr ⟨rfl, Nat.lt_succ_self _⟩⟩
  · split
    · exact Or.inr ⟨rfl, Or.inl (Nat.lt_succ_self _)⟩
    · exact Or.inl (Nat.lt_succ_self _)

/-- Strictly ordered dates are distinct. -/
lemma Date.lt_ne {a b : Date} (h : Date.lt a b) : a ≠ b := by
  intro he
  subst he
  rcases a with ⟨y, m, d⟩
  simp only [Date.lt] at h
  omega

/-- Totality of the datetime order. -/
lemma DateTime.lt_total (a b : DateTime) :
    a = b ∨ DateTime.lt a b ∨ DateTime.lt b a := by
  rcases a with ⟨⟨y1, m1, d1⟩, h1, mi1, s1, u1⟩
  rcases b with ⟨⟨y2, m2, d2⟩, h2, mi2, s2, u2⟩
  simp only [DateTime.lt, Date.lt, DateTime.mk.injEq, Date.mk.injEq]
  omega

/-- When `now` is at hour `h`, minute `0`, zeroing its seconds and
microseconds can only move it backwards or keep it equal. -/
lemma replaceHM_le_self {now : DateTime} {h : Nat} (h1 : now.hour = h)
    (h2 : now.minute = 0) : DateTime.le (now.replaceHM h) now := by
  rcases now with ⟨⟨y, m, d⟩, hh, mm, ss, uu⟩
  simp only at h1 h2
  subst h1 h2
  simp only [DateTime.replaceHM, DateTime.le, DateTime.lt, Date.lt,
    DateTime.mk.injEq, Date.mk.injEq, lt_self_iff_false, true_and, false_or,
    false_and, or_false]
  omega

/-- C1: for every wall-clock time `now` and hour `h` in `0..23`,
`get_next_run` returns an instant with hour `h` and minute `0` that is
strictly after `now`; when `now` is already at hour `h` minute `0` the
result is the qualifying instant plus exactly one day (never `now`
itself); and the day rollover is correct across month and year
boundaries, e.g. Dec 31 23:59 with target hour 0 yields Jan 1 00:00 of
the next year. -/
theorem C1_get_next_run_correct (now : DateTime) (h : Nat) (_hh : h ≤ 23) :
    (get_next_run now h).hour = h ∧
    (get_next_run now h).minute = 0 ∧
    DateTime.lt now (get_next_run now h) ∧
    (now.hour = h ∧ now.minute = 0 →
      get_next_run now h = (now.replaceHM h).addOneDay ∧
      get_next_run now h ≠ now) ∧
    get_next_run ⟨⟨2024, 12, 31⟩, 23, 59, 0, 0⟩ 0 = ⟨⟨2025, 1, 1⟩, 0, 0, 0, 0⟩ := by
  by_cases hc : DateTime.le (now.replaceHM h) now
  · have hg : get_next_run now h = (now.replaceHM h).addOneDay := by
      simp only [get_next_run, if_pos hc]
    refine ⟨?_, ?_, ?_, ?_, by decide⟩
    · rw [hg]; rfl
    · rw [hg]; rfl
    · rw [hg]
      exact Or.inl (Date.lt_next now.date)
    · intro _
      refine ⟨hg, ?_⟩
      rw [hg]
      intro he
      exact Date.lt_ne (Date.lt_next now.date) (congrArg DateTime.date he).symm
  · have hg : get_next_run now h = now.replaceHM h := by
      simp only [get_next_run, if_neg hc]
    refine ⟨?_, ?_, ?_, ?_, by decide⟩
    · rw [hg]; rfl
    · rw [hg]; rfl
    · rcases DateTime.lt_total now (now.replaceHM h) with he | hlt | hgt
      · exact absurd (Or.inl he.symm) hc
      · rw [hg]; exact hlt
      · exact absurd (Or.inr hgt) hc
    · intro hcond
      exact absurd (replaceHM_le_self hcond.1 hcond.2) hc

/-- C1 witness: the theorem instantiated at Jan 31 2024, 05:00:00 with
target hour 5 (a qualifying instant, exercising the 24-hour advance). -/
theorem C1_get_next_run_correct_witness :
    (5 : Nat) ≤ 23 ∧
    ((get_next_run ⟨⟨2024, 1, 31⟩, 5, 0, 0, 0⟩ 5).hour = 5 ∧
     (get_next_run ⟨⟨2024, 1, 31⟩, 5, 0, 0, 0⟩ 5).minute = 0 ∧
     DateTime.lt ⟨⟨2024, 1, 31⟩, 5, 0, 0, 0⟩
       (get_next_run ⟨⟨2024, 1, 31⟩, 5, 0, 0, 0⟩ 5) ∧
     ((⟨⟨2024, 1, 31⟩, 5, 0, 0, 0⟩ : DateTime).hour = 5 ∧
      (⟨⟨2024, 1, 31⟩, 5, 0, 0, 0⟩ : DateTime).minute = 0 →
        get_next_run ⟨⟨2024, 1, 31⟩, 5, 0, 0, 0⟩ 5 =
          ((⟨⟨2024, 1, 31⟩, 5, 0, 0, 0⟩ : DateTime).replaceHM 5).addOneDay ∧
        get_next_run ⟨⟨2024, 1, 31⟩, 5, 0, 0, 0⟩ 5 ≠ ⟨⟨2024, 1, 31⟩, 5, 0, 0, 0⟩) ∧
     get_next_run ⟨⟨2024, 12, 31⟩, 23, 59, 0, 0⟩ 0 = ⟨⟨2025, 1, 1⟩, 0, 0, 0, 0⟩) :=
  ⟨by decide, C1_get_next_run_correct ⟨⟨2024, 1, 31⟩, 5, 0, 0, 0⟩ 5 (by decide)⟩

/-- C2: the tick keeps no per-minute state, so two invocations of
`check_schedule` falling in the same qualifying minute (backup enabled,
hour 3, minute 0 — here at seconds 10 and 40) each fire the backup
action, for a total of two firings in that minute instead of the
specified exactly one. -/
theorem C2_check_schedule_double_fire :
    check_schedule ⟨true, 3, false, 0⟩ ⟨⟨2025, 5, 6⟩, 3, 0, 10, 0⟩ =
      [SchedAction.backup] ∧
    check_schedule ⟨true, 3, false, 0⟩ ⟨⟨2025, 5, 6⟩, 3, 0, 40, 0⟩ =
      [SchedAction.backup] ∧
    backupFireCount ⟨true, 3, false, 0⟩
      [⟨⟨2025, 5, 6⟩, 3, 0, 10, 0⟩, ⟨⟨2025, 5, 6⟩, 3, 0, 40, 0⟩] = 2 := by
  decide

/-- C3: while the child process is alive, `start()` is a silent no-op:
the state (and so the process handle) is unchanged, no process is
spawned, and no error is raised. -/
theorem C3_start_noop_while_running (sp : ServerProcess) (jarExists spawnOk : Bool)
    (newPid : Nat) (halive : procAlive sp = true) :
    sp.start jarExists spawnOk newPid = (sp, none, none) := by
  simp [ServerProcess.start, halive]

/-- C3 witness: a supervisor with a live pid-42 child, started again. -/
theorem C3_start_noop_while_running_witness :
    procAlive ⟨some ⟨42, true⟩⟩ = true ∧
    ServerProcess.start ⟨some ⟨42, true⟩⟩ true true 99 =
      (⟨some ⟨42, true⟩⟩, none, none) :=
  ⟨by decide, C3_start_noop_while_running ⟨some ⟨42, true⟩⟩ true true 99 (by decide)⟩

/-- C4: with no process started yet and the server jar absent, `start()`
fails with `ExecutableMissing`, spawns nothing, and the process handle
stays unset. -/
theorem C4_start_executable_missing (sp : ServerProcess) (spawnOk : Bool)
    (newPid : Nat) (hns : sp.proc = none) :
    sp.start false spawnOk newPid =
      (sp, none, some StartError.ExecutableMissing) ∧
    (sp.start false spawnOk newPid).1.proc = none := by
  have ha : procAlive sp = false := by simp [procAlive, hns]
  refine ⟨?_, ?_⟩
  · simp [ServerProcess.start, ha]
  · simp [ServerProcess.start, ha, hns]

/-- C4 witness: a fresh supervisor started in a jar-less directory. -/
theorem C4_start_executable_missing_witness :
    (⟨none⟩ : ServerProcess).proc = none ∧
    (ServerProcess.start ⟨none⟩ false true 7 =
      (⟨none⟩, none, some StartError.ExecutableMissing) ∧
     (ServerProcess.start ⟨none⟩ false true 7).1.proc = none) :=
  ⟨rfl, C4_start_executable_missing ⟨none⟩ true 7 rfl⟩

/-- C5 counterexample: calling `send_command` on a supervisor with no
live process returns normally (`Except.ok` with nothing written), not
the `NotRunningError` the claim states. -/
theorem C5_send_command_counterexample :
    ServerProcess.send_command ⟨none⟩ "list" true ≠
      Except.error SendError.NotRunningError ∧
    ServerProcess.send_command ⟨none⟩ "list" true = Except.ok (⟨none⟩, []) := by
  refine ⟨?_, rfl⟩
  intro hcon
  exact Except.noConfusion hcon

/-- C5 amended: with no live child process, `send_command` is a silent
no-op — it returns normally with no error, writes nothing to any input
stream, and leaves the state unchanged. -/
theorem C5_send_command_silent_noop (sp : ServerProcess) (cmd : String)
    (writeOk : Bool) (hdead : procAlive sp = false) :
    sp.send_command cmd writeOk = Except.ok (sp, []) := by
  simp [ServerProcess.send_command, hdead]

/-- C5 witness: the amended theorem at a stopped supervisor. -/
theorem C5_send_command_silent_noop_witness :
    procAlive ⟨some ⟨42, false⟩⟩ = false ∧
    ServerProcess.send_command ⟨some ⟨42, false⟩⟩ "say hi" true =
      Except.ok (⟨some ⟨42, false⟩⟩, []) :=
  ⟨by decide, C5_send_command_silent_noop ⟨some ⟨42, false⟩⟩ "say hi" true (by decide)⟩

/-! ## Lemmas for the users helpers -/

/-- `add_op` keeps the names pairwise distinct. -/
lemma add_op_preserves_nodup (ops : List OpEntry) (name : String)
    (uuid : Option String) (level : Nat) (h : (ops.map OpEntry.name).Nodup) :
    ((add_op ops name uuid level).map OpEntry.name).Nodup := by
  unfold add_op
  split
  · exact h
  · rename_i hany
    rw [List.map_append, List.nodup_append]
    refine ⟨h, List.nodup_singleton _, ?_⟩
    intro x hx hmem
    simp only [List.map_cons, List.map_nil, List.mem_singleton] at hmem
    subst hmem
    obtain ⟨e, he, hname⟩ := List.mem_map.mp hx
    exact hany (List.any_eq_true.mpr ⟨e, he, by simp [hname]⟩)

/-- `add_whitelist` keeps the names pairwise distinct. -/
lemma add_whitelist_preserves_nodup (wl : List WlEntry) (name : String)
    (uuid : Option String) (h : (wl.map WlEntry.name).Nodup) :
    ((add_whitelist wl name uuid).map WlEntry.name).Nodup := by
  unfold add_whitelist
  split
  · exact h
  · rename_i hany
    rw [List.map_append, List.nodup_append]
    refine ⟨h, List.nodup_singleton _, ?_⟩
    intro x hx hmem
    simp only [List.map_cons, List.map_nil, List.mem_singleton] at hmem
    subst hmem
    obtain ⟨e, he, hname⟩ := List.mem_map.mp hx
    exact hany (List.any_eq_true.mpr ⟨e, he, by simp [hname]⟩)

/-- A sequence of `add_op` calls keeps the names pairwise distinct. -/
lemma foldl_add_op_nodup (adds : List (String × Option String × Nat)) :
    ∀ ops : List OpEntry, (ops.map OpEntry.name).Nodup →
      ((adds.foldl (fun acc a => add_op acc a.1 a.2.1 a.2.2) ops).map
        OpEntry.name).Nodup := by
  induction adds with
  | nil => intro ops h; exact h
  | cons a rest ih =>
    intro ops h
    exact ih _ (add_op_preserves_nodup ops a.1 a.2.1 a.2.2 h)

/-- A sequence of `add_whitelist` calls keeps the names pairwise distinct. -/
lemma foldl_add_whitelist_nodup (wadds : List (String × Option String)) :
    ∀ wl : List WlEntry, (wl.map WlEntry.name).Nodup →
      ((wadds.foldl (fun acc a => add_whitelist acc a.1 a.2) wl).map
        WlEntry.name).Nodup := by
  induction wadds with
  | nil => intro wl h; exact h
  | cons a rest ih =>
    intro wl h
    exact ih _ (add_whitelist_preserves_nodup wl a.1 a.2 h)

/-- C10: `add_op` leaves the list unchanged when an entry with the same
name — or, when a truthy uuid is supplied, the same uuid — already
exists; `add_whitelist` leaves the list unchanged when the name is
already present; and starting from pairwise-distinct names, no sequence
of add calls on either list ever produces two entries with the same
name. -/
theorem C10_duplicate_suppression (ops : List OpEntry) (wl : List WlEntry)
    (name : String) (uuid : Option String) (level : Nat)
    (wname : String) (wuuid : Option String)
    (adds : List (String × Option String × Nat))
    (wadds : List (String × Option String))
    (hops : (ops.map OpEntry.name).Nodup) (hwl : (wl.map WlEntry.name).Nodup) :
    ((∃ e ∈ ops, e.name = name) ∨
       (uuidTruthy uuid = true ∧ ∃ e ∈ ops, e.uuid = uuid) →
      add_op ops name uuid level = ops) ∧
    ((∃ e ∈ wl, e.name = wname) → add_whitelist wl wname wuuid = wl) ∧
    ((adds.foldl (fun acc a => add_op acc a.1 a.2.1 a.2.2) ops).map
      OpEntry.name).Nodup ∧
    ((wadds.foldl (fun acc a => add_whitelist acc a.1 a.2) wl).map
      WlEntry.name).Nodup := by
  refine ⟨?_, ?_, foldl_add_op_nodup adds ops hops,
    foldl_add_whitelist_nodup wadds wl hwl⟩
  · intro hdup
    have hany : (ops.any fun e =>
        e.name == name || (uuidTruthy uuid && e.uuid == uuid)) = true := by
      rcases hdup with ⟨e, he, hn⟩ | ⟨hu, e, he, hid⟩
      · exact List.any_eq_true.mpr ⟨e, he, by simp [hn]⟩
      · exact List.any_eq_true.mpr ⟨e, he, by simp [hu, hid]⟩
    simp [add_op, hany]
  · intro hdup
    obtain ⟨e, he, hn⟩ := hdup
    have hany : (wl.any fun e => e.name == wname) = true :=
      List.any_eq_true.mpr ⟨e, he, by simp [hn]⟩
    simp [add_whitelist, hany]

/-- C10 witness: a list with one op "alice" (uuid set) and one
whitelisted "bob", a duplicate add of each, and two further add
sequences. -/
theorem C10_duplicate_suppression_witness :
    (([(⟨"alice", 4, false, some "u-alice"⟩ : OpEntry)]).map OpEntry.name).Nodup ∧
    (([(⟨"bob", none⟩ : WlEntry)]).map WlEntry.name).Nodup ∧
    (((∃ e ∈ [(⟨"alice", 4, false, some "u-alice"⟩ : OpEntry)], e.name = "alice") ∨
        (uuidTruthy (some "u-alice") = true ∧
         ∃ e ∈ [(⟨"alice", 4, false, some "u-alice"⟩ : OpEntry)],
           e.uuid = some "u-alice") →
       add_op [⟨"alice", 4, false, some "u-alice"⟩] "alice" (some "u-alice") 4 =
         [⟨"alice", 4, false, some "u-alice"⟩]) ∧
     ((∃ e ∈ [(⟨"bob", none⟩ : WlEntry)], e.name = "bob") →
       add_whitelist [⟨"bob", none⟩] "bob" none = [⟨"bob", none⟩]) ∧
     (([("carol", some "", 3), ("alice", none, 2)].foldl
        (fun acc a => add_op acc a.1 a.2.1 a.2.2)
        [⟨"alice", 4, false, some "u-alice"⟩]).map OpEntry.name).Nodup ∧
     (([("bob", none), ("dave", some "x")].foldl
        (fun acc a => add_whitelist acc a.1 a.2)
        [⟨"bob", none⟩]).map WlEntry.name).Nodup) :=
  ⟨by decide, by decide,
   C10_duplicate_suppression [⟨"alice", 4, false, some "u-alice"⟩] [⟨"bob", none⟩]
     "alice" (some "u-alice") 4 "bob" none
     [("carol", some "", 3), ("alice", none, 2)]
     [("bob", none), ("dave", some "x")] (by decide) (by decide)⟩

/-! ## Lemmas for the file-system model -/

/-- `ensure_dir` never touches the files. -/
lemma ensureDirFS_files (fs : FS) (d : FPath) : (ensureDirFS fs d).files = fs.files := by
  unfold ensureDirFS
  split <;> rfl

/-- Writing at `p` makes `p`'s content the written data. -/
lemma find?_setFile_self (l : List (FPath × FileData)) (p : FPath) (d : FileData) :
    (setFile l p d).find? (fun e => e.1 == p) = some (p, d) := by
  induction l with
  | nil => simp [setFile]
  | cons e rest ih =>
    by_cases h : e.1 = p
    · simp [setFile, h]
    · simp only [setFile, beq_iff_eq, if_neg h, List.find?_cons, h]
      simp [h, ih]

/-- Writing at `p` leaves every other path's content unchanged. -/
lemma find?_setFile_ne (l : List (FPath × FileData)) (p : FPath) (d : FileData)
    (q : FPath) (hne : q ≠ p) :
    (setFile l p d).find? (fun e => e.1 == q) = l.find? (fun e => e.1 == q) := by
  have hqp : (p == q) = false :=
    beq_eq_false_iff_ne.mpr (fun hh => hne hh.symm)
  induction l with
  | nil => simp [setFile, List.find?_cons, hqp]
  | cons e rest ih =>
    by_cases h : e.1 = p
    · have h2 : (e.1 == q) = false :=
        beq_eq_false_iff_ne.mpr (fun hh => hne (h ▸ hh).symm)
      simp [setFile, h, List.find?_cons, hqp, h2]
    · have hs : setFile (e :: rest) p d = e :: setFile rest p d := by
        simp [setFile, h]
      rw [hs]
      by_cases h2 : e.1 = q
      · simp [List.find?_cons, h2]
      · have h2f : (e.1 == q) = false := beq_eq_false_iff_ne.mpr h2
        simp [List.find?_cons, h2f, ih]

/-- Splitting off the head of the path below a nonempty prefix. -/
lemma drop_pred_head (wd p : FPath) (hne : wd ≠ [])
    (hpre : wd.isPrefixOf p = true) :
    (p.drop (wd.length - 1)).head? = wd.getLast? := by
  obtain ⟨t, rfl⟩ := List.isPrefixOf_iff_prefix.mp hpre
  rcases List.eq_nil_or_concat wd with h | ⟨ys, y, rfl⟩
  · exact absurd h hne
  · rw [List.concat_eq_append, List.append_assoc, List.singleton_append,
      List.length_append]
    simp only [List.length_cons, List.length_nil]
    rw [Nat.add_sub_cancel, List.drop_left]
    simp [List.getLast?_concat]

/-- C6: `make_world_backup` fails with `WorldMissing` when the world
folder does not exist, and on success creates
`backups/world_<ts>.zip` under the server directory whose entries are
exactly the files recursively under the world folder at their paths
relative to the world folder's parent (so every entry starts with the
world folder's own name), while every other path — in particular every
pre-existing file, the timestamped name being fresh — keeps its previous
content. -/
theorem C6_make_world_backup (fs : FS) (serverDir wd : FPath) (ts : String)
    (hwdne : wd ≠ [])
    (hfresh : lookupFile fs (serverDir ++ ["backups", "world_" ++ ts ++ ".zip"]) = none) :
    (pathExists fs wd = false →
      make_world_backup fs serverDir (some wd) ts =
        (fs, none, some BackupError.WorldMissing)) ∧
    (pathExists fs wd = true →
      (make_world_backup fs serverDir (some wd) ts).2.2 = none ∧
      (make_world_backup fs serverDir (some wd) ts).2.1 =
        some (serverDir ++ ["backups", "world_" ++ ts ++ ".zip"]) ∧
      (∃ entries,
        lookupFile (make_world_backup fs serverDir (some wd) ts).1
            (serverDir ++ ["backups", "world_" ++ ts ++ ".zip"]) =
          some (FileData.zipArchive entries) ∧
        (∀ q d, (q, d) ∈ entries ↔
          ∃ p, (p, d) ∈ fs.files ∧ wd.isPrefixOf p = true ∧
            q = p.drop (wd.length - 1)) ∧
        (∀ q d, (q, d) ∈ entries → q.head? = wd.getLast?)) ∧
      (∀ p, p ≠ serverDir ++ ["backups", "world_" ++ ts ++ ".zip"] →
        lookupFile (make_world_backup fs serverDir (some wd) ts).1 p =
          lookupFile fs p) ∧
      (∀ p, lookupFile fs p ≠ none →
        lookupFile (make_world_backup fs serverDir (some wd) ts).1 p =
          lookupFile fs p)) := by
  constructor
  · intro hmiss
    simp [make_world_backup, hmiss]
  · intro hex
    have hred : make_world_backup fs serverDir (some wd) ts =
        ({ ensureDirFS fs (backupDirPath serverDir) with
            files := setFile (ensureDirFS fs (backupDirPath serverDir)).files
              (backupDirPath serverDir ++ ["world_" ++ ts ++ ".zip"])
              (FileData.zipArchive
                ((filesUnder (ensureDirFS fs (backupDirPath serverDir)) wd).map
                  (fun e => (relTo (parentPath wd) e.1, e.2)))) },
         some (backupDirPath serverDir ++ ["world_" ++ ts ++ ".zip"]), none) := by
      simp only [make_world_backup, Option.getD_some, if_pos hex]
    have hzp : backupDirPath serverDir ++ ["world_" ++ ts ++ ".zip"] =
        serverDir ++ ["backups", "world_" ++ ts ++ ".zip"] := by
      simp [backupDirPath]
    refine ⟨by rw [hred], by rw [hred, hzp], ?_, ?_, ?_⟩
    · refine ⟨(filesUnder fs wd).map (fun e => (relTo (parentPath wd) e.1, e.2)),
        ?_, ?_, ?_⟩
      · rw [hred]
        simp only [lookupFile, ← hzp]
        rw [ensureDirFS_files, filesUnder, ensureDirFS_files]
        rw [find?_setFile_self]
        rfl
      · intro q d
        constructor
        · intro hq
          obtain ⟨⟨p, dd⟩, hef, heq⟩ := List.mem_map.mp hq
          obtain ⟨hefs, hpred⟩ := List.mem_filter.mp hef
          simp only [Prod.mk.injEq] at heq
          refine ⟨p, ?_, hpred, ?_⟩
          · rw [← heq.2]; exact hefs
          · rw [← heq.1]
            simp [relTo, parentPath, List.length_dropLast]
        · rintro ⟨p, hpf, hpre, hq⟩
          apply List.mem_map.mpr
          refine ⟨(p, d), List.mem_filter.mpr ⟨hpf, hpre⟩, ?_⟩
          simp [relTo, parentPath, List.length_dropLast, hq]
      · intro q d hq
        obtain ⟨⟨p, dd⟩, hef, heq⟩ := List.mem_map.mp hq
        obtain ⟨hefs, hpred⟩ := List.mem_filter.mp hef
        simp only [Prod.mk.injEq] at heq
        rw [← heq.1]
        simp only [relTo, parentPath]
        rw [List.length_dropLast]
        exact drop_pred_head wd p hwdne hpred
    · intro p hp
      rw [hred]
      simp only [lookupFile]
      rw [ensureDirFS_files]
      rw [find?_setFile_ne]
      rw [hzp]
      exact hp
    · intro p hp
      by_cases hpe : p = serverDir ++ ["backups", "world_" ++ ts ++ ".zip"]
      · exact absurd (hpe ▸ hfresh) hp
      · rw [hred]
        simp only [lookupFile]
        rw [ensureDirFS_files]
        rw [find?_setFile_ne]
        rw [hzp]
        exact hpe

/-- C6 witness: the theorem at a two-file file system whose world folder
`["s", "w"]` holds one file. -/
theorem C6_make_world_backup_witness :
    (["s", "w"] : FPath) ≠ [] ∧
    lookupFile ⟨[(["s", "w", "a"], FileData.raw "A"), (["s", "x"], FileData.raw "X")],
        [["s", "w"]]⟩ (["s"] ++ ["backups", "world_" ++ "T" ++ ".zip"]) = none ∧
    ((pathExists ⟨[(["s", "w", "a"], FileData.raw "A"), (["s", "x"], FileData.raw "X")],
          [["s", "w"]]⟩ ["s", "w"] = false →
       make_world_backup ⟨[(["s", "w", "a"], FileData.raw "A"), (["s", "x"], FileData.raw "X")],
          [["s", "w"]]⟩ ["s"] (some ["s", "w"]) "T" =
        (⟨[(["s", "w", "a"], FileData.raw "A"), (["s", "x"], FileData.raw "X")],
          [["s", "w"]]⟩, none, some BackupError.WorldMissing)) ∧
     (pathExists ⟨[(["s", "w", "a"], FileData.raw "A"), (["s", "x"], FileData.raw "X")],
          [["s", "w"]]⟩ ["s", "w"] = true →
       (make_world_backup ⟨[(["s", "w", "a"], FileData.raw "A"), (["s", "x"], FileData.raw "X")],
          [["s", "w"]]⟩ ["s"] (some ["s", "w"]) "T").2.2 = none ∧
       (make_world_backup ⟨[(["s", "w", "a"], FileData.raw "A"), (["s", "x"], FileData.raw "X")],
          [["s", "w"]]⟩ ["s"] (some ["s", "w"]) "T").2.1 =
         some (["s"] ++ ["backups", "world_" ++ "T" ++ ".zip"]) ∧
       (∃ entries,
         lookupFile (make_world_backup ⟨[(["s", "w", "a"], FileData.raw "A"),
             (["s", "x"], FileData.raw "X")], [["s", "w"]]⟩ ["s"]
             (some ["s", "w"]) "T").1
             (["s"] ++ ["backups", "world_" ++ "T" ++ ".zip"]) =
           some (FileData.zipArchive entries) ∧
         (∀ q d, (q, d) ∈ entries ↔
           ∃ p, (p, d) ∈ (⟨[(["s", "w", "a"], FileData.raw "A"),
               (["s", "x"], FileData.raw "X")], [["s", "w"]]⟩ : FS).files ∧
             (["s", "w"] : FPath).isPrefixOf p = true ∧
             q = p.drop ((["s", "w"] : FPath).length - 1)) ∧
         (∀ q d, (q, d) ∈ entries → q.head? = (["s", "w"] : FPath).getLast?)) ∧
       (∀ p, p ≠ ["s"] ++ ["backups", "world_" ++ "T" ++ ".zip"] →
         lookupFile (make_world_backup ⟨[(["s", "w", "a"], FileData.raw "A"),
             (["s", "x"], FileData.raw "X")], [["s", "w"]]⟩ ["s"]
             (some ["s", "w"]) "T").1 p =
           lookupFile ⟨[(["s", "w", "a"], FileData.raw "A"),
             (["s", "x"], FileData.raw "X")], [["s", "w"]]⟩ p) ∧
       (∀ p, lookupFile ⟨[(["s", "w", "a"], FileData.raw "A"),
             (["s", "x"], FileData.raw "X")], [["s", "w"]]⟩ p ≠ none →
         lookupFile (make_world_backup ⟨[(["s", "w", "a"], FileData.raw "A"),
             (["s", "x"], FileData.raw "X")], [["s", "w"]]⟩ ["s"]
             (some ["s", "w"]) "T").1 p =
           lookupFile ⟨[(["s", "w", "a"], FileData.raw "A"),
             (["s", "x"], FileData.raw "X")], [["s", "w"]]⟩ p))) :=
  ⟨by decide, rfl,
   C6_make_world_backup ⟨[(["s", "w", "a"], FileData.raw "A"),
       (["s", "x"], FileData.raw "X")], [["s", "w"]]⟩ ["s"] ["s", "w"] "T"
     (by decide) rfl⟩

/-- C7: restoring from a nonexistent archive path fails with
`ArchiveMissing` and returns the file system unchanged: nothing is
renamed, modified or extracted, so any existing world directory is left
untouched. -/
theorem C7_restore_archive_missing (fs : FS) (serverDir backupZip : FPath)
    (ts : String) (hmiss : pathExists fs backupZip = false) :
    restore_backup fs serverDir backupZip ts =
      (fs, some RestoreError.ArchiveMissing) := by
  simp [restore_backup, hmiss]

/-- C7 witness: a file system with a live world directory and no archive
at the requested path. -/
theorem C7_restore_archive_missing_witness :
    pathExists ⟨[(["s", "world", "a"], FileData.raw "A")], [["s", "world"]]⟩
      ["s", "backups", "world_X.zip"] = false ∧
    restore_backup ⟨[(["s", "world", "a"], FileData.raw "A")], [["s", "world"]]⟩
      ["s"] ["s", "backups", "world_X.zip"] "T" =
      (⟨[(["s", "world", "a"], FileData.raw "A")], [["s", "world"]]⟩,
       some RestoreError.ArchiveMissing) :=
  ⟨by decide,
   C7_restore_archive_missing ⟨[(["s", "world", "a"], FileData.raw "A")],
     [["s", "world"]]⟩ ["s"] ["s", "backups", "world_X.zip"] "T" (by decide)⟩

/-- A path with a file has `pathExists`. -/
lemma pathExists_of_lookup (fs : FS) (p : FPath) (d : FileData)
    (h : lookupFile fs p = some d) : pathExists fs p = true := by
  unfold lookupFile at h
  rcases hfind : fs.files.find? (fun e => e.1 == p) with _ | e
  · rw [hfind] at h
    simp at h
  · have hm := List.mem_of_find?_eq_some hfind
    have hp := List.find?_some hfind
    unfold pathExists
    rw [Bool.or_eq_true]
    right
    exact List.any_eq_true.mpr ⟨e, hm, hp⟩

/-- Renaming a tree that does not reach `q` — and whose destination does
not reach `q` either — leaves the file found at `q` unchanged. -/
lemma find?_movePath (files : List (FPath × FileData)) (src dst q : FPath)
    (hsrc : src.isPrefixOf q = false) (hdst : dst.isPrefixOf q = false) :
    (files.map (fun e => (replacePrefix src dst e.1, e.2))).find?
        (fun e => e.1 == q) =
      files.find? (fun e => e.1 == q) := by
  induction files with
  | nil => rfl
  | cons e rest ih =>
    by_cases hpq : e.1 = q
    · have hrep : replacePrefix src dst e.1 = e.1 := by
        simp [replacePrefix, hpq, hsrc]
      have hrep2 : replacePrefix src dst q = q := hpq ▸ hrep
      simp only [List.map_cons, List.find?_cons, hpq, hrep2, beq_self_eq_true]
      rw [← hpq]
    · have hL : (replacePrefix src dst e.1 == q) = false := by
        unfold replacePrefix
        by_cases hsp : src.isPrefixOf e.1
        · rw [if_pos hsp]
          apply beq_eq_false_iff_ne.mpr
          intro hh
          have hpre : dst.isPrefixOf q = true := by
            rw [← hh]
            exact List.isPrefixOf_iff_prefix.mpr (List.prefix_append _ _)
          rw [hdst] at hpre
          exact Bool.false_ne_true hpre
        · rw [if_neg hsp]
          exact beq_eq_false_iff_ne.mpr hpq
      simp only [List.map_cons, List.find?_cons, hL,
        beq_eq_false_iff_ne.mpr hpq]
      exact ih

/-- An entry survives a write at a different path. -/
lemma mem_setFile_of_ne (l : List (FPath × FileData)) (p : FPath) (d : FileData)
    (k : FPath) (v : FileData) (hk : (k, v) ∈ l) (hne : k ≠ p) :
    (k, v) ∈ setFile l p d := by
  induction l with
  | nil => cases hk
  | cons e rest ih =>
    by_cases hep : e.1 = p
    · have hs : setFile (e :: rest) p d = (p, d) :: rest := by
        simp [setFile, hep]
      rw [hs]
      rcases List.mem_cons.mp hk with heq | hk'
      · exact absurd (hep ▸ congrArg Prod.fst heq) hne
      · exact List.mem_cons_of_mem _ hk'
    · have hs : setFile (e :: rest) p d = e :: setFile rest p d := by
        simp [setFile, hep]
      rw [hs]
      rcases List.mem_cons.mp hk with heq | hk'
      · exact heq ▸ List.mem_cons_self _ _
      · exact List.mem_cons_of_mem _ (ih hk')

/-- An entry whose path no archive entry targets survives extraction. -/
lemma mem_extractAll_of_ne (entries : List (FPath × FileData)) (fs : FS)
    (target : FPath) (k : FPath) (v : FileData) (hk : (k, v) ∈ fs.files)
    (hne : ∀ e ∈ entries, k ≠ target ++ e.1) :
    (k, v) ∈ (extractAll fs target entries).files := by
  induction entries generalizing fs with
  | nil => exact hk
  | cons e rest ih =>
    have hstep : extractAll fs target (e :: rest) =
        extractAll { fs with files := setFile fs.files (target ++ e.1) e.2 }
          target rest := rfl
    rw [hstep]
    apply ih
    · exact mem_setFile_of_ne _ _ _ _ _ hk (hne e (List.mem_cons_self _ _))
    · intro e' he'
      exact hne e' (List.mem_cons_of_mem _ he')

/-- Extraction only writes files, never directories. -/
lemma extractAll_dirs (entries : List (FPath × FileData)) (fs : FS)
    (target : FPath) : (extractAll fs target entries).dirs = fs.dirs := by
  induction entries generalizing fs with
  | nil => rfl
  | cons e rest ih =>
    have hstep : extractAll fs target (e :: rest) =
        extractAll { fs with files := setFile fs.files (target ++ e.1) e.2 }
          target rest := rfl
    rw [hstep]
    exact ih _

/-- C8: a successful restore with an existing world directory first
renames the whole world tree to `world_old_<ts>` and only then extracts
the archive, so — the archive living outside the world tree and its
entries not targeting the preserved name — every pre-restore world file
is still present afterwards under the new name, with the world directory
itself renamed alongside: the prior state is moved aside, never
deleted. -/
theorem C8_restore_preserves_world (fs : FS) (serverDir backupZip : FPath)
    (ts : String) (entries : List (FPath × FileData))
    (hz : lookupFile fs backupZip = some (FileData.zipArchive entries))
    (hwp : (worlds_dir serverDir).isPrefixOf backupZip = false)
    (hop : (serverDir ++ ["world_old_" ++ ts]).isPrefixOf backupZip = false)
    (hworldEx : pathExists fs (worlds_dir serverDir) = true)
    (hent : ∀ e ∈ entries, e.1.head? ≠ some ("world_old_" ++ ts)) :
    (restore_backup fs serverDir backupZip ts).2 = none ∧
    (∀ p d, (p, d) ∈ fs.files → (worlds_dir serverDir).isPrefixOf p = true →
      (serverDir ++ ["world_old_" ++ ts] ++ p.drop (worlds_dir serverDir).length,
        d) ∈ (restore_backup fs serverDir backupZip ts).1.files) ∧
    (worlds_dir serverDir ∈ fs.dirs →
      serverDir ++ ["world_old_" ++ ts] ∈
        (restore_backup fs serverDir backupZip ts).1.dirs) := by
  have hpe : pathExists fs backupZip = true :=
    pathExists_of_lookup fs backupZip _ hz
  have hlook : lookupFile
      (movePath fs (worlds_dir serverDir) (serverDir ++ ["world_old_" ++ ts]))
      backupZip = some (FileData.zipArchive entries) := by
    unfold lookupFile movePath
    rw [find?_movePath fs.files _ _ backupZip hwp hop]
    exact hz
  have hred : restore_backup fs serverDir backupZip ts =
      (extractAll
        (movePath fs (worlds_dir serverDir) (serverDir ++ ["world_old_" ++ ts]))
        serverDir entries, none) := by
    simp only [restore_backup, hpe, if_true, hworldEx, hlook]
  refine ⟨by rw [hred], ?_, ?_⟩
  · intro p d hpf hpre
    rw [hred]
    apply mem_extractAll_of_ne
    · have hm : (replacePrefix (worlds_dir serverDir)
          (serverDir ++ ["world_old_" ++ ts]) p, d) ∈
          (movePath fs (worlds_dir serverDir)
            (serverDir ++ ["world_old_" ++ ts])).files :=
        List.mem_map.mpr ⟨(p, d), hpf, rfl⟩
      unfold replacePrefix at hm
      rw [if_pos hpre] at hm
      exact hm
    · intro e he heq
      rw [List.append_assoc] at heq
      have hcan := List.append_cancel_left heq
      apply hent e he
      rw [← hcan]
      rfl
  · intro hd
    rw [hred]
    show serverDir ++ ["world_old_" ++ ts] ∈
      (extractAll (movePath fs (worlds_dir serverDir)
        (serverDir ++ ["world_old_" ++ ts])) serverDir entries).dirs
    rw [extractAll_dirs]
    unfold movePath
    apply List.mem_map.mpr
    refine ⟨worlds_dir serverDir, hd, ?_⟩
    unfold replacePrefix
    rw [if_pos (List.isPrefixOf_iff_prefix.mpr (List.prefix_refl _))]
    rw [List.drop_length, List.append_nil]

/-- C8 witness: a file system with one world file and one archive in the
backups directory, restored with timestamp "T". -/
theorem C8_restore_preserves_world_witness :
    lookupFile ⟨[(["s", "world", "a"], FileData.raw "A"),
        (["s", "backups", "b.zip"],
          FileData.zipArchive [(["world", "c"], FileData.raw "C")])],
        [["s", "world"]]⟩ ["s", "backups", "b.zip"] =
      some (FileData.zipArchive [(["world", "c"], FileData.raw "C")]) ∧
    (worlds_dir ["s"]).isPrefixOf ["s", "backups", "b.zip"] = false ∧
    ((["s"] ++ ["world_old_" ++ "T"]) : FPath).isPrefixOf
      ["s", "backups", "b.zip"] = false ∧
    pathExists ⟨[(["s", "world", "a"], FileData.raw "A"),
        (["s", "backups", "b.zip"],
          FileData.zipArchive [(["world", "c"], FileData.raw "C")])],
        [["s", "world"]]⟩ (worlds_dir ["s"]) = true ∧
    (∀ e ∈ [((["world", "c"] : FPath), FileData.raw "C")],
      (e.1).head? ≠ some ("world_old_" ++ "T")) ∧
    ((restore_backup ⟨[(["s", "world", "a"], FileData.raw "A"),
        (["s", "backups", "b.zip"],
          FileData.zipArchive [(["world", "c"], FileData.raw "C")])],
        [["s", "world"]]⟩ ["s"] ["s", "backups", "b.zip"] "T").2 = none ∧
     (∀ p d, (p, d) ∈ (⟨[(["s", "world", "a"], FileData.raw "A"),
          (["s", "backups", "b.zip"],
            FileData.zipArchive [(["world", "c"], FileData.raw "C")])],
          [["s", "world"]]⟩ : FS).files →
        (worlds_dir ["s"]).isPrefixOf p = true →
        (["s"] ++ ["world_old_" ++ "T"] ++ p.drop (worlds_dir ["s"]).length, d) ∈
          (restore_backup ⟨[(["s", "world", "a"], FileData.raw "A"),
            (["s", "backups", "b.zip"],
              FileData.zipArchive [(["world", "c"], FileData.raw "C")])],
            [["s", "world"]]⟩ ["s"] ["s", "backups", "b.zip"] "T").1.files) ∧
     (worlds_dir ["s"] ∈ (⟨[(["s", "world", "a"], FileData.raw "A"),
          (["s", "backups", "b.zip"],
            FileData.zipArchive [(["world", "c"], FileData.raw "C")])],
          [["s", "world"]]⟩ : FS).dirs →
       ["s"] ++ ["world_old_" ++ "T"] ∈
         (restore_backup ⟨[(["s", "world", "a"], FileData.raw "A"),
           (["s", "backups", "b.zip"],
             FileData.zipArchive [(["world", "c"], FileData.raw "C")])],
           [["s", "world"]]⟩ ["s"] ["s", "backups", "b.zip"] "T").1.dirs)) :=
  ⟨rfl, by decide, by decide, by decide, by decide,
   C8_restore_preserves_world ⟨[(["s", "world", "a"], FileData.raw "A"),
       (["s", "backups", "b.zip"],
         FileData.zipArchive [(["world", "c"], FileData.raw "C")])],
       [["s", "world"]]⟩ ["s"] ["s", "backups", "b.zip"] "T"
     [(["world", "c"], FileData.raw "C")] rfl (by decide) (by decide)
     (by decide) (by decide)⟩

/-! ## Lemmas for the properties-file round trip -/

/-- A list whose head is not accepted by `p` survives `dropWhile p`. -/
lemma dropWhile_eq_self_of_head (p : Char → Bool) (l : List Char)
    (h : (l.head?.all fun c => !p c) = true) : l.dropWhile p = l := by
  cases l with
  | nil => rfl
  | cons c cs =>
    simp only [List.head?_cons, Option.all_some, Bool.not_eq_true'] at h
    simp [List.dropWhile_cons, h]

/-- The last character of a written line `k=v` is not Python whitespace
when `v`'s last character is not (when `v` is empty the line ends in
`'='`). -/
lemma line_getLast_not_ws (k v : List Char)
    (hvl : (v.getLast?.all fun c => !pyWhitespace c) = true) :
    ((k ++ '=' :: v).getLast?.all fun c => !pyWhitespace c) = true := by
  cases v with
  | nil =>
    rw [List.getLast?_concat]
    decide
  | cons c cs =>
    rw [List.append_cons, List.getLast?_append_of_ne_nil _ (by simp)]
    exact hvl

/-- `strip` leaves a written line `k=v` unchanged: the key starts it
with a non-whitespace character and the value (or `'='`) ends it with
one. -/
lemma stripChars_line (k v : List Char) (hk : k ≠ [])
    (hkh : (k.head?.all fun c => !pyWhitespace c) = true)
    (hvl : (v.getLast?.all fun c => !pyWhitespace c) = true) :
    stripChars (k ++ '=' :: v) = k ++ '=' :: v := by
  unfold stripChars
  have h1 : ((k ++ '=' :: v).head?.all fun c => !pyWhitespace c) = true := by
    cases k with
    | nil => exact absurd rfl hk
    | cons a as => simpa using hkh
  rw [dropWhile_eq_self_of_head _ _ h1]
  have h2 : (((k ++ '=' :: v).reverse).head?.all fun c => !pyWhitespace c) = true := by
    rw [List.head?_reverse]
    exact line_getLast_not_ws k v hvl
  rw [dropWhile_eq_self_of_head _ _ h2, List.reverse_reverse]

/-- Splitting a written line `k=v` on its first `'='` recovers `(k, v)`
when the key contains no `'='`. -/
lemma splitFirstEq_line (k v : List Char) (h : '=' ∉ k) :
    splitFirstEq (k ++ '=' :: v) = some (k, v) := by
  induction k with
  | nil => simp [splitFirstEq]
  | cons c cs ih =>
    have hc : c ≠ '=' := fun he => h (he ▸ List.mem_cons_self _ _)
    have hcs : '=' ∉ cs := fun hm => h (List.mem_cons_of_mem _ hm)
    simp [splitFirstEq, hc, ih hcs]

/-- The parse-loop body on a written line `k=v` is a dict assignment. -/
lemma parseLine_line (props : List (List Char × List Char)) (k v : List Char)
    (hk : k ≠ []) (heq : '=' ∉ k) (hhash : k.head? ≠ some '#')
    (hkh : (k.head?.all fun c => !pyWhitespace c) = true)
    (hvl : (v.getLast?.all fun c => !pyWhitespace c) = true) :
    parseLine props (k ++ '=' :: v) = dictSet props k v := by
  unfold parseLine
  rw [stripChars_line k v hk hkh hvl]
  have hne : k ++ '=' :: v ≠ [] := by
    cases k <;> simp
  rw [if_neg hne]
  have hhead : (k ++ '=' :: v).head? ≠ some '#' := by
    cases k with
    | nil => exact absurd rfl hk
    | cons a as => simpa using hhash
  rw [if_neg hhead, splitFirstEq_line k v heq]

/-- Assigning a fresh key appends it, in insertion order. -/
lemma dictSet_fresh (d : List (List Char × List Char)) (k v : List Char)
    (h : ∀ e ∈ d, e.1 ≠ k) : dictSet d k v = d ++ [(k, v)] := by
  induction d with
  | nil => rfl
  | cons e rest ih =>
    have he : e.1 ≠ k := h e (List.mem_cons_self _ _)
    have hrest : ∀ e' ∈ rest, e'.1 ≠ k := fun e' hm =>
      h e' (List.mem_cons_of_mem _ hm)
    simp [dictSet, he, ih hrest]

/-- The universal-newline translation is the identity on contents with
no carriage return. -/
lemma univNl_no_cr (l : List Char) (h : '\r' ∉ l) : univNl l = l := by
  induction l with
  | nil => rfl
  | cons c rest ih =>
    have hc : c ≠ '\r' := fun he => h (he ▸ List.mem_cons_self _ _)
    have hrest : '\r' ∉ rest := fun hm => h (List.mem_cons_of_mem _ hm)
    rw [univNl.eq_def]
    split <;> simp_all

/-- The written file contains no carriage return when no key or value
does. -/
lemma cr_not_mem_write (props : List (List Char × List Char))
    (h : ∀ e ∈ props, '\r' ∉ e.1 ∧ '\r' ∉ e.2) :
    '\r' ∉ write_properties props := by
  induction props with
  | nil => simp [write_properties]
  | cons e rest ih =>
    have he := h e (List.mem_cons_self _ _)
    have hrest : ∀ e' ∈ rest, '\r' ∉ e'.1 ∧ '\r' ∉ e'.2 := fun e' hm =>
      h e' (List.mem_cons_of_mem _ hm)
    have hw : write_properties (e :: rest) =
        (e.1 ++ '=' :: e.2) ++ '\n' :: write_properties rest := by
      simp [write_properties, List.append_assoc]
    rw [hw]
    intro hm
    rcases List.mem_append.mp hm with h1 | h2
    · rcases List.mem_append.mp h1 with h3 | h4
      · exact he.1 h3
      · rcases List.mem_cons.mp h4 with heq2 | h5
        · exact absurd heq2 (by decide)
        · exact he.2 h5
    · rcases List.mem_cons.mp h2 with heq2 | h6
      · exact absurd heq2 (by decide)
      · exact ih hrest h6

/-- A newline-free line followed by a newline is split off whole. -/
lemma splitLinesNl_append (l rest : List Char) (h : '\n' ∉ l) :
    splitLinesNl (l ++ '\n' :: rest) = l :: splitLinesNl rest := by
  induction l with
  | nil => simp [splitLinesNl]
  | cons c cs ih =>
    have hc : c ≠ '\n' := fun he => h (he ▸ List.mem_cons_self _ _)
    have hcs : '\n' ∉ cs := fun hm => h (List.mem_cons_of_mem _ hm)
    simp only [List.cons_append, splitLinesNl, if_neg hc, List.append_eq]
    rw [ih hcs]

/-- The file `write_properties` writes splits back into one line per
entry (plus the empty trailing line), provided keys and values are
newline-free. -/
lemma splitLinesNl_write (props : List (List Char × List Char))
    (h : ∀ e ∈ props, '\n' ∉ e.1 ∧ '\n' ∉ e.2) :
    splitLinesNl (write_properties props) =
      props.map (fun e => e.1 ++ '=' :: e.2) ++ [[]] := by
  induction props with
  | nil => rfl
  | cons e rest ih =>
    have he := h e (List.mem_cons_self _ _)
    have hrest : ∀ e' ∈ rest, '\n' ∉ e'.1 ∧ '\n' ∉ e'.2 := fun e' hm =>
      h e' (List.mem_cons_of_mem _ hm)
    have hline : '\n' ∉ e.1 ++ '=' :: e.2 := by
      intro hm
      rcases List.mem_append.mp hm with h1 | h2
      · exact he.1 h1
      · rcases List.mem_cons.mp h2 with heq2 | h3
        · exact absurd heq2.symm (by decide)
        · exact he.2 h3
    have hw : write_properties (e :: rest) =
        (e.1 ++ '=' :: e.2) ++ '\n' :: write_properties rest := by
      simp [write_properties, List.append_assoc]
    rw [hw, splitLinesNl_append _ _ hline, ih hrest]
    simp

/-- Folding the parse loop over written lines of fresh, well-formed
entries appends them all, in order. -/
lemma foldl_parseLine (props : List (List Char × List Char)) :
    ∀ acc : List (List Char × List Char),
      (∀ e ∈ props, e.1 ≠ [] ∧ '=' ∉ e.1 ∧ e.1.head? ≠ some '#' ∧
        (e.1.head?.all fun c => !pyWhitespace c) = true ∧
        (e.2.getLast?.all fun c => !pyWhitespace c) = true) →
      (∀ e ∈ props, ∀ a ∈ acc, a.1 ≠ e.1) →
      (props.map Prod.fst).Nodup →
      (props.map (fun e : List Char × List Char => e.1 ++ '=' :: e.2) ++
        [[]]).foldl parseLine acc = acc ++ props := by
  induction props with
  | nil =>
    intro acc _ _ _
    simp [parseLine, stripChars]
  | cons e rest ih =>
    intro acc hgood hfresh hnodup
    have hge := hgood e (List.mem_cons_self _ _)
    rw [List.map_cons, List.cons_append, List.foldl_cons]
    rw [parseLine_line acc e.1 e.2 hge.1 hge.2.1 hge.2.2.1 hge.2.2.2.1
      hge.2.2.2.2]
    rw [dictSet_fresh acc e.1 e.2
      (fun a ha => hfresh e (List.mem_cons_self _ _) a ha)]
    rw [List.map_cons] at hnodup
    have hn := List.nodup_cons.mp hnodup
    rw [ih (acc ++ [(e.1, e.2)])
      (fun e' he' => hgood e' (List.mem_cons_of_mem _ he'))
      ?_ hn.2]
    · rw [List.append_assoc]
      rfl
    · intro e' he' a ha
      rcases List.mem_append.mp ha with haa | hae
      · exact hfresh e' (List.mem_cons_of_mem _ he') a haa
      · have : a = (e.1, e.2) := by simpa using hae
        rw [this]
        intro hcon
        exact hn.1 (hcon ▸ List.mem_map_of_mem Prod.fst he')

/-- C9: writing a dictionary with `write_properties` and reading the
same path back with `read_properties` — text mode, so `'\r'` also acts
as a line terminator — returns the same dictionary, provided the keys
are nonempty, contain no `'='`, do not start with `'#'`, and keys and
values contain no newline character (`'\n'` or `'\r'`) and no leading
or trailing Python whitespace (values may themselves contain `'='`:
parsing splits on the first `'='` only). -/
theorem C9_properties_roundtrip (props : List (List Char × List Char))
    (hnodup : (props.map Prod.fst).Nodup)
    (hgood : ∀ e ∈ props, e.1 ≠ [] ∧ '=' ∉ e.1 ∧ e.1.head? ≠ some '#' ∧
      '\n' ∉ e.1 ∧ '\n' ∉ e.2 ∧ '\r' ∉ e.1 ∧ '\r' ∉ e.2 ∧
      noEdgeWs e.1 = true ∧ noEdgeWs e.2 = true) :
    read_properties (write_properties props) = props := by
  unfold read_properties
  rw [univNl_no_cr _ (cr_not_mem_write props
    (fun e he => ⟨(hgood e he).2.2.2.2.2.1, (hgood e he).2.2.2.2.2.2.1⟩))]
  rw [splitLinesNl_write props
    (fun e he => ⟨(hgood e he).2.2.2.1, (hgood e he).2.2.2.2.1⟩)]
  have hmain := foldl_parseLine props []
    (fun e he => ⟨(hgood e he).1, (hgood e he).2.1, (hgood e he).2.2.1,
      (Bool.and_eq_true _ _ |>.mp ((hgood e he).2.2.2.2.2.2.2.1)).1,
      (Bool.and_eq_true _ _ |>.mp ((hgood e he).2.2.2.2.2.2.2.2)).2⟩)
    (fun e _ a ha => absurd ha (List.not_mem_nil a))
    hnodup
  simpa using hmain

/-- C9 witness: the round trip at a two-entry dictionary whose second
value itself contains `'='`. -/
theorem C9_properties_roundtrip_witness :
    (([(['p', 't'], ['2', '5']), (['m', 'd'], ['A', '=', 'B'])] :
        List (List Char × List Char)).map Prod.fst).Nodup ∧
    (∀ e ∈ ([(['p', 't'], ['2', '5']), (['m', 'd'], ['A', '=', 'B'])] :
        List (List Char × List Char)),
      e.1 ≠ [] ∧ '=' ∉ e.1 ∧ e.1.head? ≠ some '#' ∧
      '\n' ∉ e.1 ∧ '\n' ∉ e.2 ∧ '\r' ∉ e.1 ∧ '\r' ∉ e.2 ∧
      noEdgeWs e.1 = true ∧ noEdgeWs e.2 = true) ∧
    read_properties (write_properties
        [(['p', 't'], ['2', '5']), (['m', 'd'], ['A', '=', 'B'])]) =
      [(['p', 't'], ['2', '5']), (['m', 'd'], ['A', '=', 'B'])] :=
  ⟨by decide, by decide,
   C9_properties_roundtrip [(['p', 't'], ['2', '5']), (['m', 'd'], ['A', '=', 'B'])]
     (by decide) (by decide)⟩
